import Mathlib

/-!
Verification of the `markup/_speedups.c` C extension module (Markup class,
escaping engine, pushback iterator) against its natural-language
specification.  Python unicode strings are modelled as `List Char`; Python
objects relevant to the module (plain unicode strings, `Markup` instances,
integers) are modelled by the `PyVal` type.  CPython runtime primitives used
by the module (`PyUnicode_Replace`, `PyUnicode_Format` restricted to the
`%s` and `%%` directives exercised here, `PyUnicode_Join`, `PyList` append
and pop-front) are modelled directly on `List Char` / `List`.
-/

/-- A Python value as far as the `_speedups` module observes it: a plain
unicode string, an instance of the `Markup` subtype, or an integer
(covering the `quotes` flags passed positionally). -/
inductive PyVal : Type where
  | str (s : List Char)
  | markup (s : List Char)
  | int (n : Int)
deriving DecidableEq

/-- `str(v)`: the unicode coercion used by `PyObject_Unicode` and the
unicode `tp_new`. `Markup` is a unicode subtype, so it coerces to its own
character data; integers render as their decimal representation. -/
def strOf : PyVal → List Char
  | .str s => s
  | .markup s => s
  | .int n => (toString n).toList

/-- The entity constants built by `init_constants`. -/
def amp1 : List Char := "&".toList

def amp2 : List Char := "&amp;".toList

def lt1 : List Char := "<".toList

def lt2 : List Char := "&lt;".toList

def gt1 : List Char := ">".toList

def gt2 : List Char := "&gt;".toList

def qt1 : List Char := "\"".toList

def qt2 : List Char := "&#34;".toList

/-- Per-character output of the second (writing) pass of `escape`,
mirroring the `switch` in lines 128-153 of the C source. -/
def escapeChar (quotes : Bool) (c : Char) : List Char :=
  if c = '&' then amp2
  else if c = '"' then (if quotes then qt2 else [c])
  else if c = '<' then lt2
  else if c = '>' then gt2
  else [c]

/-- Per-character length computed by the first (counting) pass of `escape`,
mirroring the `switch` in lines 102-110 of the C source. -/
def escLen (quotes : Bool) (c : Char) : Nat :=
  if c = '&' then 5
  else if c = '"' then (if quotes then 5 else 1)
  else if c = '<' then 4
  else if c = '>' then 4
  else 1

/-- The static `escape` function of the module: a `Markup` instance is
returned unchanged; any other value is coerced to unicode, the output
length is computed in a first pass, and if nothing needs escaping the
input is wrapped as-is, otherwise the escaped text is written
character-for-character in a second pass and wrapped as `Markup`. -/
def escape (quotes : Bool) (text : PyVal) : PyVal :=
  match text with
  | .markup s => .markup s
  | t =>
    let s := strOf t
    if (s.map (escLen quotes)).sum = s.length then .markup s
    else .markup (s.flatMap (escapeChar quotes))

theorem one_le_escLen (q : Bool) (c : Char) : 1 ≤ escLen q c := by
  unfold escLen
  split_ifs <;> omega

theorem length_escapeChar (q : Bool) (c : Char) : (escapeChar q c).length = escLen q c := by
  unfold escapeChar escLen
  split_ifs <;> rfl

theorem escLen_eq_one (q : Bool) (c : Char) (h : escLen q c = 1) : escapeChar q c = [c] := by
  unfold escLen at h
  unfold escapeChar
  split_ifs at h ⊢ <;> first | rfl | omega

theorem length_le_sum_escLen (q : Bool) (s : List Char) :
    s.length ≤ (s.map (escLen q)).sum := by
  induction s with
  | nil => simp
  | cons c cs ih =>
    have := one_le_escLen q c
    simp only [List.map_cons, List.sum_cons, List.length_cons]
    omega

/-- On the fast path (escaped length equals input length) every character
escapes to itself. -/
theorem flatMap_escapeChar_of_sum_eq (q : Bool) (s : List Char)
    (h : (s.map (escLen q)).sum = s.length) :
    s.flatMap (escapeChar q) = s := by
  induction s with
  | nil => rfl
  | cons c cs ih =>
    simp only [List.map_cons, List.sum_cons, List.length_cons] at h
    have h1 := one_le_escLen q c
    have h2 := length_le_sum_escLen q cs
    have hc : escLen q c = 1 := by omega
    have hs : (cs.map (escLen q)).sum = cs.length := by omega
    rw [List.flatMap_cons, escLen_eq_one q c hc, ih hs]
    rfl

/-- The content obtained by escaping a value: `Markup` passes through
untouched, anything else is substituted character-for-character. -/
def escContent (q : Bool) : PyVal → List Char
  | .markup s => s
  | .str s => s.flatMap (escapeChar q)
  | .int n => (strOf (.int n)).flatMap (escapeChar q)

/-- Characterization of `escape`: it always returns a `Markup` value whose
content is the single-pass per-character substitution of the input (for a
`Markup` input, the input itself). -/
theorem escape_eq (q : Bool) (v : PyVal) : escape q v = .markup (escContent q v) := by
  cases v with
  | markup s => rfl
  | str s =>
    show (if (s.map (escLen q)).sum = s.length then PyVal.markup s
          else PyVal.markup (s.flatMap (escapeChar q))) = _
    split_ifs with h
    · rw [show escContent q (PyVal.str s) = s.flatMap (escapeChar q) from rfl,
          flatMap_escapeChar_of_sum_eq q s h]
    · rfl
  | int n =>
    show (if (((strOf (PyVal.int n)).map (escLen q)).sum = (strOf (PyVal.int n)).length)
            then PyVal.markup (strOf (PyVal.int n))
          else PyVal.markup ((strOf (PyVal.int n)).flatMap (escapeChar q))) = _
    split_ifs with h
    · rw [show escContent q (PyVal.int n) = (strOf (PyVal.int n)).flatMap (escapeChar q) from rfl,
          flatMap_escapeChar_of_sum_eq q _ h]
    · rfl

/-- C1: for every plain text `T` and quotes flag `q`, the content of
`escape(T, q)` is the left-to-right concatenation, over the characters of
`T`, of `&amp;` for `&`, `&lt;` for `<`, `&gt;` for `>`, `&#34;` for `"`
when `q` is set (the literal `"` otherwise) and the character itself
otherwise; entity text produced by one substitution is never re-escaped
(each input character contributes exactly its own image once).  Sanity
instances: `escape("&") = "&amp;"` and `escape("&amp;") = "&amp;amp;"`. -/
theorem C1_escape_single_pass :
    (∀ (s : List Char) (q : Bool),
       escape q (PyVal.str s) = PyVal.markup (s.flatMap (escapeChar q)))
    ∧ escape true (PyVal.str amp1) = PyVal.markup amp2
    ∧ escape true (PyVal.str amp2) = PyVal.markup ("&amp;amp;".toList) := by
  refine ⟨fun s q => ?_, by decide, by decide⟩
  rw [escape_eq]
  rfl

/-- Character-by-character prefix test, as the C-level unicode comparison
underlying `PyUnicode_Replace` match checking performs it. -/
def isPre : List Char → List Char → Bool
  | [], _ => true
  | _ :: _, [] => false
  | a :: as, b :: bs => a == b && isPre as bs

/-- `PyUnicode_Replace(s, pat, repl, -1)`: replace every non-overlapping
occurrence of `pat` in `s` by `repl`, scanning left to right. -/
def replaceAll (pat repl : List Char) (s : List Char) : List Char :=
  match s with
  | [] => []
  | c :: rest =>
    if isPre pat (c :: rest) = true ∧ pat ≠ [] then
      repl ++ replaceAll pat repl (List.drop (pat.length - 1) rest)
    else
      c :: replaceAll pat repl rest
termination_by s.length
decreasing_by
  · simp only [List.length_cons, List.length_drop]
    omega
  · simp only [List.length_cons]
    omega

/-- `Markup.unescape`: reverse the four substitutions, quote entity first,
then `&gt;`, then `&lt;`, and `&amp;` last (lines 357-373). -/
def Markup_unescape (self : List Char) : List Char :=
  replaceAll amp2 amp1 (replaceAll lt2 lt1 (replaceAll gt2 gt1 (replaceAll qt2 qt1 self)))

theorem isPre_append_self (p r : List Char) : isPre p (p ++ r) = true := by
  induction p with
  | nil => rfl
  | cons a as ih => simp [isPre, ih]

theorem isPre_take (p x r : List Char) (h : isPre p (x ++ r) = true) :
    isPre (p.take x.length) x = true := by
  induction x generalizing p with
  | nil => cases p <;> rfl
  | cons b bs ih =>
    cases p with
    | nil => rfl
    | cons a as =>
      simp only [List.cons_append, isPre, Bool.and_eq_true] at h
      simp only [List.length_cons, List.take_succ_cons, isPre, Bool.and_eq_true]
      exact ⟨h.1, ih as h.2⟩

theorem isPre_head_ne (p0 d : Char) (pt w : List Char) (h : d ≠ p0) :
    isPre (p0 :: pt) (d :: w) = false := by
  simp only [isPre, Bool.and_eq_false_iff]
  left
  simp only [beq_eq_false_iff_ne, ne_eq]
  exact fun hc => h hc.symm

theorem replaceAll_nil (pat repl : List Char) : replaceAll pat repl [] = [] := by
  rw [replaceAll]

theorem replaceAll_cons_match (p0 : Char) (pt repl r : List Char) :
    replaceAll (p0 :: pt) repl ((p0 :: pt) ++ r) = repl ++ replaceAll (p0 :: pt) repl r := by
  rw [show (p0 :: pt) ++ r = p0 :: (pt ++ r) from rfl, replaceAll]
  rw [if_pos ⟨by rw [show p0 :: (pt ++ r) = (p0 :: pt) ++ r from rfl]; exact isPre_append_self _ _,
              List.cons_ne_nil p0 pt⟩]
  simp only [List.length_cons, Nat.add_sub_cancel]
  rw [List.drop_left pt r]

theorem replaceAll_cons_skip (pat repl : List Char) (c : Char) (w : List Char)
    (h : isPre pat (c :: w) = false) :
    replaceAll pat repl (c :: w) = c :: replaceAll pat repl w := by
  rw [replaceAll, if_neg]
  intro hc
  rw [h] at hc
  exact Bool.false_ne_true hc.1

theorem replaceAll_append_skip (pat repl x r : List Char)
    (h : ∀ k, k < x.length → isPre pat (List.drop k x ++ r) = false) :
    replaceAll pat repl (x ++ r) = x ++ replaceAll pat repl r := by
  induction x with
  | nil => rfl
  | cons c xs ih =>
    have h0 : isPre pat (c :: (xs ++ r)) = false := by
      have := h 0 (by simp)
      simpa using this
    rw [List.cons_append, replaceAll_cons_skip pat repl c (xs ++ r) h0]
    rw [ih (fun k hk => by
      have := h (k + 1) (by simp only [List.length_cons]; omega)
      simpa using this)]
    rfl

/-- Replacing one of the escape entities inside a block decomposition: if
every character's block is either exactly the pattern (replaced, block
becomes `repl`) or a block that the pattern cannot match into (kept), then
a global left-to-right replace acts blockwise. -/
theorem replaceAll_flatMap (p0 : Char) (pt repl : List Char) (f g : Char → List Char)
    (h : ∀ c, (f c = p0 :: pt ∧ g c = repl) ∨
       (g c = f c ∧ f c ≠ [] ∧ isPre ((p0 :: pt).take (f c).length) (f c) = false ∧
        ∀ d ∈ List.drop 1 (f c), d ≠ p0)) :
    ∀ t : List Char, replaceAll (p0 :: pt) repl (t.flatMap f) = t.flatMap g := by
  intro t
  induction t with
  | nil => rw [List.flatMap_nil, List.flatMap_nil, replaceAll_nil]
  | cons c t ih =>
    rw [List.flatMap_cons, List.flatMap_cons]
    rcases h c with ⟨hf, hg⟩ | ⟨hg, hne, hpre, hdrop⟩
    · rw [hf, hg, replaceAll_cons_match, ih]
    · rw [hg]
      rw [replaceAll_append_skip (p0 :: pt) repl (f c) (t.flatMap f) ?_, ih]
      intro k hk
      match k with
      | 0 =>
        simp only [List.drop_zero]
        rcases hb : isPre (p0 :: pt) (f c ++ t.flatMap f) with _ | _
        · rfl
        · exact absurd (isPre_take _ _ _ hb) (by rw [hpre]; exact Bool.false_ne_true)
      | k + 1 =>
        have hne2 : List.drop (k + 1) (f c) ≠ [] := by
          intro hnil
          have := congrArg List.length hnil
          simp only [List.length_drop, List.length_nil] at this
          omega
        obtain ⟨d, z, hdz⟩ := List.exists_cons_of_ne_nil hne2
        have hdmem : d ∈ List.drop 1 (f c) := by
          have : List.drop (k + 1) (f c) = List.drop k (List.drop 1 (f c)) := by
            rw [List.drop_drop, Nat.add_comm]
          exact List.mem_of_mem_drop (n := k) (by rw [← this, hdz]; exact List.mem_cons_self d z)
        rw [hdz, List.cons_append]
        exact isPre_head_ne p0 d pt (z ++ t.flatMap f) (hdrop d hdmem)

/-- Per-character block state after undoing the quote entity. -/
def u1 (c : Char) : List Char :=
  if c = '&' then amp2
  else if c = '<' then lt2
  else if c = '>' then gt2
  else [c]

/-- Per-character block state after undoing the quote and `&gt;` entities. -/
def u2 (c : Char) : List Char :=
  if c = '&' then amp2
  else if c = '<' then lt2
  else [c]

/-- Per-character block state after undoing all entities but `&amp;`. -/
def u3 (c : Char) : List Char :=
  if c = '&' then amp2
  else [c]

/-- A one-character block whose character differs from the pattern head
satisfies the skip conditions of `replaceAll_flatMap`. -/
theorem singleton_block_cond (p0 : Char) (pt : List Char) (c : Char) (h : c ≠ p0) :
    ([c] : List Char) ≠ [] ∧ isPre ((p0 :: pt).take ([c] : List Char).length) [c] = false ∧
    ∀ d ∈ List.drop 1 ([c] : List Char), d ≠ p0 := by
  refine ⟨by simp, ?_, by simp⟩
  rw [show ([c] : List Char).length = 1 from rfl, show (p0 :: pt).take 1 = [p0] from by simp]
  exact isPre_head_ne p0 c [] [] h

theorem unescape_stage1 (t : List Char) :
    replaceAll qt2 qt1 (t.flatMap (escapeChar true)) = t.flatMap u1 := by
  rw [show qt2 = '&' :: "#34;".toList from rfl]
  refine replaceAll_flatMap '&' ("#34;".toList) qt1 (escapeChar true) u1 ?_ t
  intro c
  by_cases h1 : c = '&'
  · subst h1; exact Or.inr ⟨by decide, by decide, by decide, by decide⟩
  by_cases h2 : c = '"'
  · subst h2; exact Or.inl ⟨by decide, by decide⟩
  by_cases h3 : c = '<'
  · subst h3; exact Or.inr ⟨by decide, by decide, by decide, by decide⟩
  by_cases h4 : c = '>'
  · subst h4; exact Or.inr ⟨by decide, by decide, by decide, by decide⟩
  have hf : escapeChar true c = [c] := by simp [escapeChar, h1, h2, h3, h4]
  have hg : u1 c = [c] := by simp [u1, h1, h3, h4]
  refine Or.inr ?_
  rw [hf, hg]
  obtain ⟨a, b, d⟩ := singleton_block_cond '&' ("#34;".toList) c h1
  exact ⟨rfl, a, b, d⟩

theorem unescape_stage2 (t : List Char) :
    replaceAll gt2 gt1 (t.flatMap u1) = t.flatMap u2 := by
  rw [show gt2 = '&' :: "gt;".toList from rfl]
  refine replaceAll_flatMap '&' ("gt;".toList) gt1 u1 u2 ?_ t
  intro c
  by_cases h1 : c = '&'
  · subst h1; exact Or.inr ⟨by decide, by decide, by decide, by decide⟩
  by_cases h3 : c = '<'
  · subst h3; exact Or.inr ⟨by decide, by decide, by decide, by decide⟩
  by_cases h4 : c = '>'
  · subst h4; exact Or.inl ⟨by decide, by decide⟩
  have hf : u1 c = [c] := by simp [u1, h1, h3, h4]
  have hg : u2 c = [c] := by simp [u2, h1, h3]
  refine Or.inr ?_
  rw [hf, hg]
  obtain ⟨a, b, d⟩ := singleton_block_cond '&' ("gt;".toList) c h1
  exact ⟨rfl, a, b, d⟩

theorem unescape_stage3 (t : List Char) :
    replaceAll lt2 lt1 (t.flatMap u2) = t.flatMap u3 := by
  rw [show lt2 = '&' :: "lt;".toList from rfl]
  refine replaceAll_flatMap '&' ("lt;".toList) lt1 u2 u3 ?_ t
  intro c
  by_cases h1 : c = '&'
  · subst h1; exact Or.inr ⟨by decide, by decide, by decide, by decide⟩
  by_cases h3 : c = '<'
  · subst h3; exact Or.inl ⟨by decide, by decide⟩
  have hf : u2 c = [c] := by simp [u2, h1, h3]
  have hg : u3 c = [c] := by simp [u3, h1]
  refine Or.inr ?_
  rw [hf, hg]
  obtain ⟨a, b, d⟩ := singleton_block_cond '&' ("lt;".toList) c h1
  exact ⟨rfl, a, b, d⟩

theorem unescape_stage4 (t : List Char) :
    replaceAll amp2 amp1 (t.flatMap u3) = t := by
  rw [show amp2 = '&' :: "amp;".toList from rfl]
  have := replaceAll_flatMap '&' ("amp;".toList) amp1 u3 (fun c => [c]) ?_ t
  · rw [this, List.flatMap_singleton']
  intro c
  by_cases h1 : c = '&'
  · subst h1; exact Or.inl ⟨by decide, by decide⟩
  have hf : u3 c = [c] := by simp [u3, h1]
  refine Or.inr ?_
  rw [hf]
  obtain ⟨a, b, d⟩ := singleton_block_cond '&' ("amp;".toList) c h1
  exact ⟨rfl, a, b, d⟩

/-- C2: round trip: unescaping the result of escaping (with quote-escaping
on) restores the original text content, for every plain text. -/
theorem C2_unescape_escape_roundtrip :
    ∀ s : List Char, Markup_unescape (strOf (escape true (PyVal.str s))) = s := by
  intro s
  rw [escape_eq]
  show Markup_unescape (s.flatMap (escapeChar true)) = s
  unfold Markup_unescape
  rw [unescape_stage1, unescape_stage2, unescape_stage3, unescape_stage4]

/-- If the pattern matches at no position of `s`, a global replace leaves
`s` unchanged. -/
theorem replaceAll_id_of_no_match (pat repl s : List Char)
    (h : ∀ k ∈ List.range s.length, isPre pat (List.drop k s) = false) :
    replaceAll pat repl s = s := by
  have h2 : ∀ k, k < s.length → isPre pat (List.drop k s ++ []) = false := by
    intro k hk
    rw [List.append_nil]
    exact h k (List.mem_range.mpr hk)
  have := replaceAll_append_skip pat repl s [] h2
  rw [List.append_nil] at this
  rw [this, replaceAll_nil, List.append_nil]

/-- C5: unescape is a single non-recursive pass restoring `&amp;` last:
`&amp;lt;` unescapes to `&lt;` (which differs from `<`, the value a
cascaded second pass would produce), while `&lt;` alone unescapes to
`<`. -/
theorem C5_unescape_order :
    Markup_unescape ("&amp;lt;".toList) = "&lt;".toList
    ∧ Markup_unescape ("&lt;".toList) = "<".toList
    ∧ ("&lt;".toList : List Char) ≠ "<".toList := by
  refine ⟨?_, ?_, by decide⟩
  · unfold Markup_unescape
    rw [replaceAll_id_of_no_match qt2 qt1 ("&amp;lt;".toList) (by decide)]
    rw [replaceAll_id_of_no_match gt2 gt1 ("&amp;lt;".toList) (by decide)]
    rw [replaceAll_id_of_no_match lt2 lt1 ("&amp;lt;".toList) (by decide)]
    rw [show amp2 = '&' :: "amp;".toList from rfl]
    rw [show ("&amp;lt;".toList : List Char) = ('&' :: "amp;".toList) ++ "lt;".toList from by decide]
    rw [replaceAll_cons_match '&' ("amp;".toList) amp1 ("lt;".toList)]
    rw [replaceAll_id_of_no_match ('&' :: "amp;".toList) amp1 ("lt;".toList) (by decide)]
    decide
  · unfold Markup_unescape
    rw [replaceAll_id_of_no_match qt2 qt1 ("&lt;".toList) (by decide)]
    rw [replaceAll_id_of_no_match gt2 gt1 ("&lt;".toList) (by decide)]
    rw [show lt2 = '&' :: "lt;".toList from rfl]
    rw [show ("&lt;".toList : List Char) = ('&' :: "lt;".toList) ++ [] from by decide]
    rw [replaceAll_cons_match '&' ("lt;".toList) lt1 []]
    rw [replaceAll_nil]
    rw [show (lt1 ++ [] : List Char) = "<".toList from by decide]
    rw [replaceAll_id_of_no_match amp2 amp1 ("<".toList) (by decide)]

/-- Scanner checking that every `&` in a text begins one of the four
entities the escaping can produce (`&amp;`, `&lt;`, `&gt;`, `&#34;`). -/
def ampEnt : List Char → Bool
  | [] => true
  | c :: rest =>
    (if c = '&' then
       (isPre ("amp;".toList) rest || isPre ("lt;".toList) rest ||
        isPre ("gt;".toList) rest || isPre ("#34;".toList) rest)
     else true) && ampEnt rest

theorem ampEnt_amp2 (y : List Char) : ampEnt (amp2 ++ y) = ampEnt y := by
  show ampEnt ('&' :: 'a' :: 'm' :: 'p' :: ';' :: y) = ampEnt y
  rw [ampEnt, ampEnt, ampEnt, ampEnt, ampEnt]
  rw [show isPre ("amp;".toList) ('a' :: 'm' :: 'p' :: ';' :: y) = true from
        isPre_append_self ("amp;".toList) y]
  simp

theorem ampEnt_lt2 (y : List Char) : ampEnt (lt2 ++ y) = ampEnt y := by
  show ampEnt ('&' :: 'l' :: 't' :: ';' :: y) = ampEnt y
  rw [ampEnt, ampEnt, ampEnt, ampEnt]
  rw [show isPre ("lt;".toList) ('l' :: 't' :: ';' :: y) = true from
        isPre_append_self ("lt;".toList) y]
  simp

theorem ampEnt_gt2 (y : List Char) : ampEnt (gt2 ++ y) = ampEnt y := by
  show ampEnt ('&' :: 'g' :: 't' :: ';' :: y) = ampEnt y
  rw [ampEnt, ampEnt, ampEnt, ampEnt]
  rw [show isPre ("gt;".toList) ('g' :: 't' :: ';' :: y) = true from
        isPre_append_self ("gt;".toList) y]
  simp

theorem ampEnt_qt2 (y : List Char) : ampEnt (qt2 ++ y) = ampEnt y := by
  show ampEnt ('&' :: '#' :: '3' :: '4' :: ';' :: y) = ampEnt y
  rw [ampEnt, ampEnt, ampEnt, ampEnt, ampEnt]
  rw [show isPre ("#34;".toList) ('#' :: '3' :: '4' :: ';' :: y) = true from
        isPre_append_self ("#34;".toList) y]
  simp

theorem ampEnt_single (c : Char) (y : List Char) (h : c ≠ '&') :
    ampEnt (c :: y) = ampEnt y := by
  rw [ampEnt, if_neg h]
  simp

/-- The escape output never contains a reserved character and every `&` in
it starts an entity, for every input text. -/
theorem escaped_invariant (q : Bool) (s : List Char) :
    '<' ∉ s.flatMap (escapeChar q) ∧ '>' ∉ s.flatMap (escapeChar q) ∧
    ampEnt (s.flatMap (escapeChar q)) = true ∧
    '"' ∉ s.flatMap (escapeChar true) := by
  induction s with
  | nil => refine ⟨by simp, by simp, rfl, by simp⟩
  | cons c cs ih =>
    obtain ⟨ih1, ih2, ih3, ih4⟩ := ih
    rw [List.flatMap_cons, List.flatMap_cons]
    by_cases h1 : c = '&'
    · subst h1
      rw [show escapeChar q '&' = amp2 from by simp [escapeChar]]
      rw [show escapeChar true '&' = amp2 from by simp [escapeChar]]
      refine ⟨?_, ?_, ?_, ?_⟩
      · simp only [List.mem_append]
        rintro (h | h)
        · revert h; decide
        · exact ih1 h
      · simp only [List.mem_append]
        rintro (h | h)
        · revert h; decide
        · exact ih2 h
      · rw [ampEnt_amp2]; exact ih3
      · simp only [List.mem_append]
        rintro (h | h)
        · revert h; decide
        · exact ih4 h
    by_cases h2 : c = '"'
    · subst h2
      rw [show escapeChar true '"' = qt2 from by simp [escapeChar]]
      have hq : escapeChar q '"' = qt2 ∨ escapeChar q '"' = ['"'] := by
        cases q
        · right; rfl
        · left; rfl
      refine ⟨?_, ?_, ?_, ?_⟩
      · simp only [List.mem_append]
        rintro (h | h)
        · rcases hq with hq | hq <;> rw [hq] at h <;> revert h <;> decide
        · exact ih1 h
      · simp only [List.mem_append]
        rintro (h | h)
        · rcases hq with hq | hq <;> rw [hq] at h <;> revert h <;> decide
        · exact ih2 h
      · rcases hq with hq | hq <;> rw [hq]
        · rw [ampEnt_qt2]; exact ih3
        · rw [List.singleton_append, ampEnt_single '"' _ (by decide)]; exact ih3
      · simp only [List.mem_append]
        rintro (h | h)
        · revert h; decide
        · exact ih4 h
    by_cases h3 : c = '<'
    · subst h3
      rw [show escapeChar q '<' = lt2 from by simp [escapeChar]]
      rw [show escapeChar true '<' = lt2 from by simp [escapeChar]]
      refine ⟨?_, ?_, ?_, ?_⟩
      · simp only [List.mem_append]
        rintro (h | h)
        · revert h; decide
        · exact ih1 h
      · simp only [List.mem_append]
        rintro (h | h)
        · revert h; decide
        · exact ih2 h
      · rw [ampEnt_lt2]; exact ih3
      · simp only [List.mem_append]
        rintro (h | h)
        · revert h; decide
        · exact ih4 h
    by_cases h4 : c = '>'
    · subst h4
      rw [show escapeChar q '>' = gt2 from by simp [escapeChar]]
      rw [show escapeChar true '>' = gt2 from by simp [escapeChar]]
      refine ⟨?_, ?_, ?_, ?_⟩
      · simp only [List.mem_append]
        rintro (h | h)
        · revert h; decide
        · exact ih1 h
      · simp only [List.mem_append]
        rintro (h | h)
        · revert h; decide
        · exact ih2 h
      · rw [ampEnt_gt2]; exact ih3
      · simp only [List.mem_append]
        rintro (h | h)
        · revert h; decide
        · exact ih4 h
    · have hf : escapeChar q c = [c] := by simp [escapeChar, h1, h2, h3, h4]
      have hft : escapeChar true c = [c] := by simp [escapeChar, h1, h2, h3, h4]
      rw [hf, hft]
      refine ⟨?_, ?_, ?_, ?_⟩
      · simp only [List.singleton_append, List.mem_cons]
        rintro (h | h)
        · exact h3 h.symm
        · exact ih1 h
      · simp only [List.singleton_append, List.mem_cons]
        rintro (h | h)
        · exact h4 h.symm
        · exact ih2 h
      · rw [List.singleton_append, ampEnt_single c _ h1]; exact ih3
      · simp only [List.singleton_append, List.mem_cons]
        rintro (h | h)
        · exact h2 h.symm
        · exact ih4 h

/-- C3: the content of `escape(T, q)` contains no literal `<` or `>`,
every `&` in it begins one of the produced entities, and with
quote-escaping on it contains no literal `"` either. -/
theorem C3_escaped_no_reserved (s : List Char) (q : Bool) :
    '<' ∉ strOf (escape q (PyVal.str s)) ∧ '>' ∉ strOf (escape q (PyVal.str s)) ∧
    ampEnt (strOf (escape q (PyVal.str s))) = true ∧
    '"' ∉ strOf (escape true (PyVal.str s)) := by
  rw [escape_eq, escape_eq]
  exact escaped_invariant q s

/-- C4: `escape` is the identity on values that are already `Markup`, for
every quotes flag; consequently it is idempotent on every value. -/
theorem C4_escape_markup_identity :
    (∀ (s : List Char) (q : Bool), escape q (PyVal.markup s) = PyVal.markup s)
    ∧ ∀ (v : PyVal) (q q' : Bool), escape q (escape q' v) = escape q' v := by
  refine ⟨fun s q => rfl, fun v q q' => ?_⟩
  rw [escape_eq q' v]
  rfl

theorem map_strOf_escape (q : Bool) (xs : List PyVal) :
    (xs.map (escape q)).map strOf = xs.map (escContent q) := by
  induction xs with
  | nil => rfl
  | cons v vs ih =>
    rw [List.map_cons, List.map_cons, List.map_cons, escape_eq, ih]
    rfl

/-- `Markup.join(seq, escape_quotes)`: escape every element individually,
then join with the receiver as separator (`PyUnicode_Join`), wrapping the
result as `Markup` (lines 193-241). -/
def Markup_join (self : List Char) (seq : List PyVal) (quotes : Bool) : PyVal :=
  .markup (List.intercalate self ((seq.map (escape quotes)).map strOf))

/-- C6: join escapes each element with the given flag (already-safe values
pass through untouched), joins with the unescaped separator, and returns a
safe value; in particular joining `["<a>", Markup("<b/>")]` with `,` and
quote-escaping on yields `&lt;a&gt;,<b/>`. -/
theorem C6_join_escapes_elements :
    (∀ (sep : List Char) (xs : List PyVal) (q : Bool),
       Markup_join sep xs q = PyVal.markup (List.intercalate sep (xs.map (escContent q))))
    ∧ Markup_join (",".toList) [PyVal.str ("<a>".toList), PyVal.markup ("<b/>".toList)] true
        = PyVal.markup ("&lt;a&gt;,<b/>".toList) := by
  have hmain : ∀ (sep : List Char) (xs : List PyVal) (q : Bool),
      Markup_join sep xs q = PyVal.markup (List.intercalate sep (xs.map (escContent q))) := by
    intro sep xs q
    unfold Markup_join
    rw [map_strOf_escape]
  refine ⟨hmain, ?_⟩
  rw [hmain]
  decide

/-- `PyUnicode_Format`, restricted to the `%s` and `%%` directives (the only
ones this module's call sites and spec exercise): a left-to-right scan of
the template consuming one argument per `%s`; leftover or missing
arguments are errors (`not all arguments converted` / `not enough
arguments`), as is any other `%` directive in this restricted model. -/
def pyFormat : List Char → List (List Char) → Except Unit (List Char)
  | [], [] => .ok []
  | [], _ :: _ => .error ()
  | '%' :: 's' :: rest, a :: args => Except.map (fun r => a ++ r) (pyFormat rest args)
  | '%' :: 's' :: _, [] => .error ()
  | '%' :: '%' :: rest, args => Except.map (fun r => '%' :: r) (pyFormat rest args)
  | '%' :: _, _ => .error ()
  | c :: rest, args => Except.map (fun r => c :: r) (pyFormat rest args)

/-- `Markup.__new__` (lines 42-82): with zero or one positional argument the
text is wrapped directly (unicode `tp_new`); with more, every argument
after the first is escaped with quotes on and substituted into the first
via `PyUnicode_Format`. -/
def Markup_new (args : List PyVal) : Except Unit PyVal :=
  match args with
  | [] => .ok (.markup [])
  | [t] => .ok (.markup (strOf t))
  | t :: a :: rest =>
    Except.map PyVal.markup (pyFormat (strOf t) (((a :: rest).map (escape true)).map strOf))

/-- `Markup.__mod__` (lines 267-312): a tuple argument supplies one escaped
value per placeholder; a non-tuple argument is escaped and passed to
`PyUnicode_Format` as the sole substitution value. -/
def Markup_mod (self : List Char) (args : Sum (List PyVal) PyVal) : Except Unit PyVal :=
  match args with
  | .inl tup => Except.map PyVal.markup (pyFormat self ((tup.map (escape true)).map strOf))
  | .inr v => Except.map PyVal.markup (pyFormat self [strOf (escape true v)])

/-- C7: in both format-style constructions every substitution argument is
escaped with quotes on except already-safe values which pass through
as-is, the template itself is never escaped (it enters the formatting
verbatim), and for `%` a single non-tuple argument acts as the sole
substitution value while a tuple supplies one value per placeholder.
Concretely, `Markup("<b>%s</b>", "<script>")` is
`<b>&lt;script&gt;</b>`. -/
theorem C7_format_escapes_arguments :
    (∀ (t a : PyVal) (rest : List PyVal),
       Markup_new (t :: a :: rest)
         = Except.map PyVal.markup (pyFormat (strOf t) ((a :: rest).map (escContent true))))
    ∧ (∀ (self : List Char) (tup : List PyVal),
       Markup_mod self (Sum.inl tup)
         = Except.map PyVal.markup (pyFormat self (tup.map (escContent true))))
    ∧ (∀ (self : List Char) (v : PyVal),
       Markup_mod self (Sum.inr v) = Markup_mod self (Sum.inl [v]))
    ∧ Markup_new [PyVal.str ("<b>%s</b>".toList), PyVal.str ("<script>".toList)]
        = Except.ok (PyVal.markup ("<b>&lt;script&gt;</b>".toList)) := by
  refine ⟨fun t a rest => ?_, fun self tup => ?_, fun self v => rfl, by rfl⟩
  · show Except.map PyVal.markup (pyFormat (strOf t) (((a :: rest).map (escape true)).map strOf))
      = _
    rw [map_strOf_escape]
  · show Except.map PyVal.markup (pyFormat self ((tup.map (escape true)).map strOf)) = _
    rw [map_strOf_escape]

/-- The `_PushbackIterator` state: the wrapped source (modelled as the list
of items it will still yield) and the pushback buffer list. -/
structure PushbackIterator (α : Type) : Type where
  iterable : List α
  buf : List α
deriving DecidableEq

/-- `_PushbackIterator.next` (lines 696-716): if the buffer is non-empty,
pop and return its front item; otherwise pull from the wrapped source;
`none` signals exhaustion. -/
def PushbackIterator.next {α : Type} (self : PushbackIterator α) :
    Option (α × PushbackIterator α) :=
  match self.buf with
  | x :: rest => some (x, { self with buf := rest })
  | [] =>
    match self.iterable with
    | y :: ys => some (y, { self with iterable := ys })
    | [] => none

/-- `_PushbackIterator.pushback` (lines 718-728): `PyList_Append` the item
to the back of the buffer. -/
def PushbackIterator.pushback {α : Type} (self : PushbackIterator α) (item : α) :
    PushbackIterator α :=
  { self with buf := self.buf ++ [item] }

/-- C8: `next` pops the front of a non-empty buffer, pulls from the source
only when the buffer is empty, and pushed-back items replay in push order:
after pushing back `1` then `2` onto an empty buffer, the next two calls
return `1` then `2` (FIFO). -/
theorem C8_pushback_fifo :
    (∀ (α : Type) (it : List α) (x : α) (rest : List α),
       PushbackIterator.next ⟨it, x :: rest⟩ = some (x, ⟨it, rest⟩))
    ∧ (∀ (α : Type) (y : α) (ys : List α),
       PushbackIterator.next ⟨y :: ys, ([] : List α)⟩ = some (y, ⟨ys, []⟩))
    ∧ (∀ (α : Type) (it : List α) (x1 x2 : α),
       PushbackIterator.next (PushbackIterator.pushback (PushbackIterator.pushback ⟨it, []⟩ x1) x2)
           = some (x1, ⟨it, [x2]⟩)
       ∧ PushbackIterator.next (⟨it, [x2]⟩ : PushbackIterator α) = some (x2, ⟨it, []⟩)) := by
  exact ⟨fun α it x rest => rfl, fun α y ys => rfl, fun α it x1 x2 => ⟨rfl, rfl⟩⟩

/-- C10: once `next` has reported exhaustion, a `pushback(x)` makes the
immediately following `next` return `x` (and restores the pre-pushback,
exhausted state): buffered items are always served before exhaustion. -/
theorem C10_pushback_after_exhaustion {α : Type} (s : PushbackIterator α) (x : α)
    (h : PushbackIterator.next s = none) :
    PushbackIterator.next (PushbackIterator.pushback s x) = some (x, s) := by
  obtain ⟨it, buf⟩ := s
  cases buf with
  | cons b bs => exact absurd h (by simp [PushbackIterator.next])
  | nil =>
    cases it with
    | cons y ys => exact absurd h (by simp [PushbackIterator.next])
    | nil => rfl

/-- Witness for C10 at a concrete exhausted iterator over `Nat`. -/
theorem C10_pushback_after_exhaustion_witness :
    PushbackIterator.next (PushbackIterator.pushback (⟨[], []⟩ : PushbackIterator Nat) 5)
      = some (5, ⟨[], []⟩) :=
  C10_pushback_after_exhaustion (⟨[], []⟩ : PushbackIterator Nat) 5 rfl

/-- How the `quotes` argument reaches `Markup.escape`: omitted (defaults to
1), supplied via the `quotes` keyword, or supplied positionally — in the
last case the raw object also stays in the positional `args` tuple that
the falsy branch forwards to `tp_new`. -/
inductive QuotesArg : Type where
  | omitted
  | keyword (q : Bool)
  | positional (v : PyVal)

/-- `PyObject_Not`: truth-testing; strings are falsy iff empty, integers
iff zero. -/
def pyNot : PyVal → Bool
  | .str s => s.isEmpty
  | .markup s => s.isEmpty
  | .int n => decide (n = 0)

/-- The `b` (unsigned byte) conversion of `PyArg_ParseTupleAndKeywords`:
accepts an integer (truncated to a byte, then used as a C truth value),
rejects anything else. -/
def byteOf : PyVal → Except Unit Bool
  | .int n => .ok (decide (n % 256 ≠ 0))
  | _ => .error ()

/-- `Markup.escape` classmethod (lines 173-191): parse `(text, quotes=1)`;
if `text` is falsy, forward the *original positional argument tuple* to
`tp_new` (i.e. `Markup_new`); if `text` is already `Markup`, return it;
otherwise escape it with the parsed flag. -/
def Markup_escape (text : PyVal) (qa : QuotesArg) : Except Unit PyVal :=
  match (match qa with
         | .omitted => Except.ok true
         | .keyword q => Except.ok q
         | .positional v => byteOf v) with
  | .error e => .error e
  | .ok q =>
    if pyNot text then
      Markup_new (text :: (match qa with | .positional v => [v] | _ => []))
    else
      match text with
      | .markup s => .ok (.markup s)
      | t => .ok (escape q t)

/-- C9 counterexample: with the quotes flag passed positionally, the falsy
branch forwards a two-element argument tuple to the constructor, whose
formatting path fails on the empty template (`"" % (escaped_flag,)` is a
`TypeError`), so `Markup.escape("", 1)` does not return an empty safe
value. -/
theorem C9_counterexample_positional_quotes :
    Markup_escape (PyVal.str []) (QuotesArg.positional (PyVal.int 1)) = Except.error ()
    ∧ Markup_escape (PyVal.str []) (QuotesArg.positional (PyVal.int 1))
        ≠ Except.ok (PyVal.markup []) := by
  refine ⟨rfl, ?_⟩
  intro h
  rw [show Markup_escape (PyVal.str []) (QuotesArg.positional (PyVal.int 1)) = Except.error ()
        from rfl] at h
  exact Except.noConfusion h

/-- C9 (amended): when the quotes flag is omitted or passed by keyword,
`Markup.escape` on a falsy empty text — empty plain string or empty
`Markup` — returns an empty safe `Markup` value, short-circuiting before
any escaping scan. -/
theorem C9_escape_empty_short_circuit (qa : QuotesArg)
    (h : ∀ v : PyVal, qa ≠ QuotesArg.positional v) :
    Markup_escape (PyVal.str []) qa = Except.ok (PyVal.markup [])
    ∧ Markup_escape (PyVal.markup []) qa = Except.ok (PyVal.markup []) := by
  cases qa with
  | omitted => exact ⟨rfl, rfl⟩
  | keyword q => exact ⟨rfl, rfl⟩
  | positional v => exact absurd rfl (h v)

/-- Witness for the amended C9 with the quotes flag omitted. -/
theorem C9_escape_empty_short_circuit_witness :
    Markup_escape (PyVal.str []) QuotesArg.omitted = Except.ok (PyVal.markup [])
    ∧ Markup_escape (PyVal.markup []) QuotesArg.omitted = Except.ok (PyVal.markup []) :=
  C9_escape_empty_short_circuit QuotesArg.omitted (fun _ h => QuotesArg.noConfusion h)
